import Mathlib

/-!
Verification of the company-resolution core of the handel-register-to-md
repository.  The Python sources embedded here are
`src/scraper/hr_scraper/company_matcher.py` (name canonicalization, LCS,
registration similarity, scoring and selection),
`src/scraper/hr_scraper/app.py` (registration-identifier parsing and the
match-outcome dispatch of `ScraperApp.run`), and the `Company` dataclass of
`src/scraper/hr_scraper/models.py`.

Python strings are modelled as `List Char`.  Python floats are modelled as
rationals: every score in the matcher is obtained from integer data by `+`,
`*`, `/` and comparison, and no claim below depends on binary rounding.
`str.lower` and the `\w` character class are modelled on their ASCII core
(plus the German letters appearing in the data tables); the inputs of the
concrete claims are covered exactly, and the universal claims do not depend
on the classification of further code points.
-/

/-- Whitespace test matching the character class `\s` of Python's `re`
module and `str.split`/`str.strip` (ASCII range). -/
def pyIsSpace (c : Char) : Bool :=
  c = ' ' || c = '\t' || c = '\n' || c = '\r' || c = '\x0B' || c = '\x0C'

/-- Upper-to-lower table for the ASCII range. -/
def lowerPairs : List (Char × Char) :=
  [('A', 'a'), ('B', 'b'), ('C', 'c'), ('D', 'd'), ('E', 'e'), ('F', 'f'),
   ('G', 'g'), ('H', 'h'), ('I', 'i'), ('J', 'j'), ('K', 'k'), ('L', 'l'),
   ('M', 'm'), ('N', 'n'), ('O', 'o'), ('P', 'p'), ('Q', 'q'), ('R', 'r'),
   ('S', 's'), ('T', 't'), ('U', 'u'), ('V', 'v'), ('W', 'w'), ('X', 'x'),
   ('Y', 'y'), ('Z', 'z')]

/-- Lower-casing of one character, as `str.lower` acts on the ASCII range;
characters outside A-Z (in particular the already lower-case German
letters of the data tables) are unchanged. -/
def pyToLower (c : Char) : Char :=
  match lowerPairs.find? (fun p => p.1 = c) with
  | some p => p.2
  | none => c

/-- Upper-casing of one character (`str.upper` on the ASCII range), used by
the registration-number normalization. -/
def pyToUpper (c : Char) : Char :=
  if c = 'a' then 'A' else if c = 'b' then 'B' else if c = 'c' then 'C'
  else if c = 'd' then 'D' else if c = 'e' then 'E' else if c = 'f' then 'F'
  else if c = 'g' then 'G' else if c = 'h' then 'H' else if c = 'i' then 'I'
  else if c = 'j' then 'J' else if c = 'k' then 'K' else if c = 'l' then 'L'
  else if c = 'm' then 'M' else if c = 'n' then 'N' else if c = 'o' then 'O'
  else if c = 'p' then 'P' else if c = 'q' then 'Q' else if c = 'r' then 'R'
  else if c = 's' then 'S' else if c = 't' then 'T' else if c = 'u' then 'U'
  else if c = 'v' then 'V' else if c = 'w' then 'W' else if c = 'x' then 'X'
  else if c = 'y' then 'Y' else if c = 'z' then 'Z' else c

/-- Word-character test for the class `\w` used in
`re.sub(r'[^\w\s]', ' ', ...)`: ASCII alphanumerics, the underscore, and
the German letters that occur in the matcher's data tables. -/
def isWordChar (c : Char) : Bool :=
  c.isAlphanum || c = '_' || c = 'ä' || c = 'ö' || c = 'ü' || c = 'ß'

/-- String lower-casing, `str.lower`. -/
def pyLower (s : List Char) : List Char := s.map pyToLower

/-- String upper-casing, `str.upper`. -/
def pyUpper (s : List Char) : List Char := s.map pyToUpper

/-- Trim of leading and trailing whitespace, `str.strip()`. -/
def pyStrip (s : List Char) : List Char :=
  (((s.dropWhile pyIsSpace).reverse).dropWhile pyIsSpace).reverse

/-- Replacement of every maximal whitespace run by a single blank,
`re.sub(r'\s+', ' ', s)`. -/
def subWs : List Char → List Char
  | [] => []
  | [c] => if pyIsSpace c then [' '] else [c]
  | c1 :: c2 :: rest =>
    if pyIsSpace c1 && pyIsSpace c2 then subWs (c2 :: rest)
    else (if pyIsSpace c1 then ' ' else c1) :: subWs (c2 :: rest)

/-- Test that the first list is an initial segment of the second. -/
def pyStarts : List Char → List Char → Bool
  | [], _ => true
  | _ :: _, [] => false
  | a :: as, b :: bs => a = b && pyStarts as bs

/-- Substring containment `needle in hay` of Python (contiguous
occurrence; the empty string is contained in everything). -/
def pyIn (needle : List Char) : List Char → Bool
  | [] => needle.isEmpty
  | c :: t => pyStarts needle (c :: t) || pyIn needle t

/-- Fuel-indexed core of `str.replace`: scan left to right, replacing each
non-overlapping occurrence of `old` by `new`.  The fuel is an upper bound
on the number of scanning steps; `pyReplace` supplies `s.length`, which
suffices because every step consumes at least one character. -/
def pyReplaceAux (old new : List Char) : Nat → List Char → List Char
  | 0, s => s
  | _ + 1, [] => []
  | fuel + 1, c :: rest =>
    if old ≠ [] ∧ pyStarts old (c :: rest) then
      new ++ pyReplaceAux old new fuel (rest.drop (old.length - 1))
    else
      c :: pyReplaceAux old new fuel rest

/-- Python `s.replace(old, new)` for a non-empty `old` (every pattern the
matcher replaces is non-empty; for empty `old` this model returns `s`). -/
def pyReplace (old new s : List Char) : List Char :=
  pyReplaceAux old new s.length s

/-- Python `s.split()`: split on whitespace runs, discarding empty pieces.
The accumulator holds the current word reversed. -/
def pySplitGo (cur : List Char) : List Char → List (List Char)
  | [] => if cur = [] then [] else [cur.reverse]
  | c :: rest =>
    if pyIsSpace c then
      if cur = [] then pySplitGo [] rest else cur.reverse :: pySplitGo [] rest
    else pySplitGo (c :: cur) rest

/-- Python `s.split()` (no separator argument). -/
def pySplit (s : List Char) : List (List Char) := pySplitGo [] s

/-- One scraped row, the `Company` dataclass of `models.py`: a name and an
optional registration number (`hrb`). -/
structure Company where
  name : List Char
  hrb : Option (List Char)
deriving DecidableEq, Repr

/-- Truth value of an `Optional[str]` under Python truthiness: `None` and
the empty string are falsy. -/
def optTruthy : Option (List Char) → Bool
  | none => false
  | some s => !s.isEmpty

/-- The ordered legal-form replacement table `self.legal_form_mappings` of
`CompanyMatcher.__init__` (a Python 3.7+ dict iterates in insertion
order). -/
def legalFormMappings : List (List Char × List Char) :=
  [(("aktien".toList), ("ag".toList)),
   (("gesellschaft mit beschränkter haftung".toList), ("gmbh".toList)),
   (("gesellschaft mit beschraenkter haftung".toList), ("gmbh".toList)),
   (("offene handelsgesellschaft".toList), ("ohg".toList)),
   (("kommanditgesellschaft".toList), ("kg".toList)),
   (("eingetragener verein".toList), ("ev".toList)),
   (("eingetragene genossenschaft".toList), ("eg".toList)),
   (("gesellschaft bürgerlichen rechts".toList), ("gbr".toList)),
   (("gesellschaft buergerlichen rechts".toList), ("gbr".toList)),
   (("partnerschaftsgesellschaft".toList), ("partg".toList)),
   (("europäische wirtschaftliche interessenvereinigung".toList), ("ewiv".toList)),
   (("europaeische wirtschaftliche interessenvereinigung".toList), ("ewiv".toList)),
   (("europäische aktiengesellschaft".toList), ("se".toList)),
   (("europaeische aktiengesellschaft".toList), ("se".toList))]

/-- The abbreviation set `self.legal_forms = set(mappings.values())`; only
membership is used, so the value list itself serves as the set. -/
def legalForms : List (List Char) := legalFormMappings.map Prod.snd

/-- The ordered noise-word list `self.noise_words`. -/
def noiseWords : List (List Char) :=
  [("hrb".toList), ("amtsgericht".toList), ("register".toList),
   ("handelsregister".toList), ("commercial register".toList)]

/-- The canonicalizer `CompanyMatcher.normalize_company_name`: lower-case
and trim, apply the legal-form replacements in table order, delete the
noise words in list order, turn every character outside `\w` and `\s`
into a blank, collapse whitespace runs and trim. -/
def normalize_company_name (name : List Char) : List Char :=
  let s0 := pyStrip (pyLower name)
  let s1 := legalFormMappings.foldl (fun acc p => pyReplace p.1 p.2 acc) s0
  let s2 := noiseWords.foldl (fun acc w => pyReplace w [] acc) s1
  let s3 := s2.map (fun c => if isWordChar c || pyIsSpace c then c else ' ')
  pyStrip (subWs s3)

/-- The distinct whitespace-separated tokens of the canonical query name,
`search_words = set(search_name_normalized.split())`. -/
def searchWordsOf (s : List Char) : List (List Char) :=
  (pySplit (normalize_company_name s)).dedup

/-- The core query words, `[w for w in search_words if w not in
self.legal_forms]`. -/
def coreWordsOf (s : List Char) : List (List Char) :=
  (searchWordsOf s).filter (fun w => !(legalForms.contains w))

/-- The name-score block of `CompanyMatcher.find_best_match` (lines
119-136): five rules tried in priority order on the canonical names.  The
search-side normalization is hoisted in the source; recomputing it here
per candidate is value-equal because normalization is pure. -/
def nameScore (searchName companyName : List Char) : ℚ :=
  let sNorm := normalize_company_name searchName
  let sWords := (pySplit sNorm).dedup
  let core := sWords.filter (fun w => !(legalForms.contains w))
  let cNorm := normalize_company_name companyName
  let cWords := (pySplit cNorm).dedup
  if sNorm = cNorm then 100
  else if core ≠ [] ∧ ∀ w ∈ core, pyIn w cNorm then (95 : ℚ) + core.length
  else if pyIn sNorm cNorm then 90 + ((sNorm.length : ℚ) / (cNorm.length : ℚ)) * 5
  else if pyIn cNorm sNorm then 80 + ((cNorm.length : ℚ) / (sNorm.length : ℚ)) * 5
  else
    let common := sWords.inter cWords
    if common ≠ [] then
      ((common.length : ℚ) / ((max sWords.length cWords.length : Nat) : ℚ)) * 60
    else 0

/-- Inner loop of `CompanyMatcher._longest_common_subsequence`, computing
the cells `dp[i][1..n]` of row `i` from row `i-1`.  At each step the head
of `prev` is `dp[i-1][j-1]`, the next entry is `dp[i-1][j]`, and `left`
is the already computed `dp[i][j-1]`. -/
def lcsRowGo (c : Char) : List Char → List Nat → Nat → List Nat
  | [], _, _ => []
  | _ :: _, [], _ => []
  | _ :: _, [_], _ => []
  | b :: bs, p0 :: p1 :: ps, left =>
    let v := if c = b then p0 + 1 else max p1 left
    v :: lcsRowGo c bs (p1 :: ps) v

/-- One iteration of the outer loop of `_longest_common_subsequence`: the
full row `dp[i][0..n]` (its first cell is the constant 0 of the
initialised table). -/
def lcsRow (c : Char) (s2 : List Char) (prev : List Nat) : List Nat :=
  0 :: lcsRowGo c s2 prev 0

/-- The final row `dp[m][0..n]` of the table built by
`_longest_common_subsequence`; the initial row is the zero row of the
`[[0] * (n + 1) for _ in range(m + 1)]` initialisation. -/
def lcsTable (s1 s2 : List Char) : List Nat :=
  s1.foldl (fun prev c => lcsRow c s2 prev) (List.replicate (s2.length + 1) 0)

/-- Return value `dp[m][n]` of `CompanyMatcher._longest_common_subsequence`. -/
def lcsLength (s1 s2 : List Char) : Nat :=
  (lcsTable s1 s2).getLast?.getD 0

/-- Normalization of a registration number,
`CompanyMatcher._normalize_registration_number` on a truthy input:
upper-case and remove all whitespace (`re.sub(r'\s+', '', hrb.upper())`).
The falsy guard of the source is subsumed by the guard of the caller. -/
def normReg (hrb : List Char) : List Char :=
  (pyUpper hrb).filter (fun c => !pyIsSpace c)

/-- The similarity cascade
`CompanyMatcher._calculate_registration_similarity`: exact normalized
equality, one-contains-the-other, equal digit projections, then the best
of the character-level and digit-level LCS ratios. -/
def regSim (target_hrb company_hrb : List Char) : ℚ :=
  if target_hrb = [] ∨ company_hrb = [] then 0
  else
    let t := normReg target_hrb
    let c := normReg company_hrb
    if t = c then 1
    else if pyIn t c || pyIn c t then 9/10
    else
      let lcsSim : ℚ :=
        if max t.length c.length > 0 then (lcsLength t c : ℚ) / ((max t.length c.length : Nat) : ℚ) else 0
      let td := t.filter Char.isDigit
      let cd := c.filter Char.isDigit
      if td = cd then 95/100
      else
        let digitSim : ℚ :=
          if max td.length cd.length > 0 then (lcsLength td cd : ℚ) / ((max td.length cd.length : Nat) : ℚ) else 0
        max lcsSim digitSim

/-- The tier table of `find_best_match` mapping a similarity to the
registration bonus used when both identifiers are present. -/
def simTier (sim : ℚ) : ℚ :=
  if sim ≥ 95/100 then 1000
  else if sim ≥ 8/10 then 800
  else if sim ≥ 6/10 then 500
  else if sim ≥ 4/10 then 200
  else 50

/-- The registration-bonus block of `find_best_match` (lines 138-161):
tiered bonus when a truthy target and a truthy candidate number are both
present, flat `+100` for a documented candidate without a target, and the
`-50` penalty for an undocumented candidate. -/
def regBonus (target : Option (List Char)) (c : Company) : ℚ :=
  if optTruthy target && optTruthy c.hrb then
    simTier (regSim (target.getD []) (c.hrb.getD []))
  else if optTruthy c.hrb then 100
  else -50

/-- The combined score `final_score = registration_bonus + name_score * 0.1`. -/
def finalScore (searchName : List Char) (target : Option (List Char)) (c : Company) : ℚ :=
  regBonus target c + nameScore searchName c.name * (1/10)

/-- One iteration of the selection loop of `find_best_match`: skip
candidates with a falsy name, otherwise keep the strictly better of the
accumulator and the current candidate (strict `>`—the earlier candidate
wins ties). -/
def fbmStep (searchName : List Char) (target : Option (List Char))
    (acc : Option Company × ℚ) (c : Company) : Option Company × ℚ :=
  if c.name = [] then acc
  else if finalScore searchName target c > acc.2 then (some c, finalScore searchName target c)
  else acc

/-- The resolver `CompanyMatcher.find_best_match`: fold the selection step
over the candidates starting from `best_match = None`, `best_score = -1`,
and return the best candidate found (or `None`). -/
def find_best_match (searchName : List Char) (companies : List Company)
    (target : Option (List Char)) : Option Company :=
  (companies.foldl (fbmStep searchName target) (none, -1)).1

/-- Outcome of one resolution attempt as dispatched by `ScraperApp.run`
(lines 86-100 of `app.py`): an empty candidate list reports the
no-candidates error before the matcher is consulted; a `None` from
`find_best_match` reports the no-match error; otherwise the match is
used. -/
inductive MatchOutcome where
  | noCandidates : MatchOutcome
  | noMatchFound : MatchOutcome
  | matched : Company → MatchOutcome
deriving DecidableEq, Repr

/-- The dispatch of `ScraperApp.run` on a materialized candidate list. -/
def resolveOutcome (searchName : List Char) (companies : List Company)
    (target : Option (List Char)) : MatchOutcome :=
  if companies.isEmpty then .noCandidates
  else
    match find_best_match searchName companies target with
    | none => .noMatchFound
    | some c => .matched c

/-- The registry-type list `ALL_REGISTRATION_PREFIXES` of
`ScraperApp._extract_hrb_from_input`, paired with its lower-cased form
as produced by `prefix.lower()` (so `GÜR` becomes `gür`). -/
def regTypePairs : List (List Char × List Char) :=
  [(("HRB".toList), ("hrb".toList)), (("HRA".toList), ("hra".toList)),
   (("PR".toList), ("pr".toList)), (("GNR".toList), ("gnr".toList)),
   (("VR".toList), ("vr".toList)), (("GÜR".toList), ("gür".toList)),
   (("EWIV".toList), ("ewiv".toList)), (("SE".toList), ("se".toList)),
   (("SCE".toList), ("sce".toList)), (("SPE".toList), ("spe".toList))]

/-- ASCII letter test, the class `[a-zA-Z]`. -/
def isAsciiLetter (c : Char) : Bool :=
  ('a' ≤ c && c ≤ 'z') || ('A' ≤ c && c ≤ 'Z')

/-- Shape check `re.match(r'^\d{1,8}[a-zA-Z]?$', cleaned)`: one to eight
digits followed by at most one ASCII letter, and nothing else. -/
def validReg (s : List Char) : Bool :=
  let ds := s.takeWhile Char.isDigit
  let rest := s.drop ds.length
  (1 ≤ ds.length && ds.length ≤ 8) &&
  (match rest with
   | [] => true
   | [r] => isAsciiLetter r
   | _ => false)

/-- The explicit-registration branch (`if registration_number:`) of
`ScraperApp._extract_hrb_from_input`.  The regex
`^(hrb|hrb\s*:?\s*|hra|...)` removes the leftmost alternative that
matches, which is always the bare lower-cased registry type: whenever the
`\s*:?\s*` alternative of a type matches, so does the bare alternative
listed before it, so the bare one wins and any following `:` survives.
Falsy input is out of this branch (the source then scans the company
name, which no claim exercises) and is mapped to `none` here. -/
def extractRegExplicit (raw : List Char) : Option (List Char) :=
  if raw = [] then none
  else
    let s := pyStrip (pyLower raw)
    let stripped :=
      match regTypePairs.find? (fun p => pyStarts p.2 s) with
      | some p => s.drop p.2.length
      | none => s
    let cleaned := stripped.filter (fun c => !pyIsSpace c)
    if validReg cleaned then
      match regTypePairs.find? (fun p => pyStarts p.2 s) with
      | some p => some (p.1 ++ [' '] ++ pyUpper cleaned)
      | none => some (("HRB ".toList) ++ pyUpper cleaned)
    else none

/-- Reference recursion for the length of a longest common subsequence:
the textbook recurrence consuming both lists from the front. -/
def lcsRec (x y : List Char) : Nat :=
  match x, y with
  | [], _ => 0
  | _ :: _, [] => 0
  | a :: x', b :: y' =>
    if a = b then lcsRec x' y' + 1
    else max (lcsRec x' (b :: y')) (lcsRec (a :: x') y')
termination_by x.length + y.length
decreasing_by all_goals (simp [List.length_cons]; try omega)

/-- Reference value of one table row: cell `j` holds the reference LCS of
the reversed consumed part of the first string against the reversed
prefix `r2` extended by the first `j` characters of the remaining second
string. -/
def specRowAux (r1 : List Char) : List Char → List Char → List Nat
  | [], _ => []
  | b :: bs, r2 => lcsRec r1 (b :: r2) :: specRowAux r1 bs (b :: r2)

/-- Reference value of the full table row for the second string `s2`. -/
def specRow (r1 s2 : List Char) : List Nat :=
  lcsRec r1 [] :: specRowAux r1 s2 []

/-- Adjacent-whitespace freedom: no two consecutive characters are both
whitespace. -/
def noTwoSpaces (s : List Char) : Prop :=
  List.Chain' (fun a b => ¬(pyIsSpace a = true ∧ pyIsSpace b = true)) s

/-- The canonicalizer before its final whitespace collapse and trim: the
input after lower-casing, trimming, the two replacement folds and the
punctuation-to-blank map. -/
def normalizeMid (x : List Char) : List Char :=
  (noiseWords.foldl (fun acc w => pyReplace w [] acc)
    (legalFormMappings.foldl (fun acc p => pyReplace p.1 p.2 acc)
      (pyStrip (pyLower x)))).map
    (fun c => if isWordChar c || pyIsSpace c then c else ' ')

theorem lcsRec_nil_right (x : List Char) : lcsRec x [] = 0 := by
  cases x <;> simp [lcsRec]

theorem lcsRec_cons_cons (a b : Char) (x y : List Char) :
    lcsRec (a :: x) (b :: y) =
      if a = b then lcsRec x y + 1 else max (lcsRec x (b :: y)) (lcsRec (a :: x) y) := by
  simp [lcsRec]

theorem specRowAux_nil_left (bs : List Char) : ∀ r2, specRowAux [] bs r2 = List.replicate bs.length 0 := by
  induction bs with
  | nil => intro r2; simp [specRowAux]
  | cons b bs ih => intro r2; simp [specRowAux, lcsRec, List.replicate, ih]

theorem lcsRowGo_spec (c : Char) (r1 : List Char) :
    ∀ (bs r2 : List Char),
      lcsRowGo c bs (lcsRec r1 r2 :: specRowAux r1 bs r2) (lcsRec (c :: r1) r2)
        = specRowAux (c :: r1) bs r2 := by
  intro bs
  induction bs with
  | nil => intro r2; simp [lcsRowGo, specRowAux]
  | cons b bs ih =>
    intro r2
    have hv : (if c = b then lcsRec r1 r2 + 1
        else max (lcsRec r1 (b :: r2)) (lcsRec (c :: r1) r2)) = lcsRec (c :: r1) (b :: r2) :=
      (lcsRec_cons_cons c b r1 r2).symm
    simp only [specRowAux, lcsRowGo, hv]
    exact congrArg (lcsRec (c :: r1) (b :: r2) :: ·) (ih (b :: r2))

theorem lcsRow_spec (c : Char) (r1 s2 : List Char) :
    lcsRow c s2 (specRow r1 s2) = specRow (c :: r1) s2 := by
  simp only [lcsRow, specRow]
  rw [show (0 : Nat) = lcsRec (c :: r1) [] from (lcsRec_nil_right _).symm]
  rw [lcsRowGo_spec c r1 s2 []]

theorem lcsTable_fold_spec (s2 : List Char) :
    ∀ (s1 r1 : List Char),
      s1.foldl (fun prev c => lcsRow c s2 prev) (specRow r1 s2) = specRow (s1.reverse ++ r1) s2 := by
  intro s1
  induction s1 with
  | nil => intro r1; simp
  | cons c s1 ih =>
    intro r1
    simp only [List.foldl_cons, lcsRow_spec]
    rw [ih (c :: r1)]
    simp

theorem lcsTable_eq_specRow (s1 s2 : List Char) :
    lcsTable s1 s2 = specRow s1.reverse s2 := by
  have hinit : List.replicate (s2.length + 1) 0 = specRow [] s2 := by
    simp [specRow, specRowAux_nil_left, lcsRec, List.replicate]
  rw [lcsTable, hinit]
  have := lcsTable_fold_spec s2 s1 []
  simpa using this

theorem specRowAux_getLast (r1 : List Char) :
    ∀ (bs r2 : List Char), bs ≠ [] →
      (specRowAux r1 bs r2).getLast? = some (lcsRec r1 (bs.reverse ++ r2)) := by
  intro bs
  induction bs with
  | nil => intro r2 h; exact absurd rfl h
  | cons b bs ih =>
    intro r2 _
    cases bs with
    | nil => simp [specRowAux]
    | cons b2 bs2 =>
      rw [show specRowAux r1 (b :: b2 :: bs2) r2
          = lcsRec r1 (b :: r2) :: specRowAux r1 (b2 :: bs2) (b :: r2) from rfl]
      rw [show specRowAux r1 (b2 :: bs2) (b :: r2)
          = lcsRec r1 (b2 :: b :: r2) :: specRowAux r1 bs2 (b2 :: b :: r2) from rfl]
      rw [List.getLast?_cons_cons]
      rw [show lcsRec r1 (b2 :: b :: r2) :: specRowAux r1 bs2 (b2 :: b :: r2)
          = specRowAux r1 (b2 :: bs2) (b :: r2) from rfl]
      rw [ih (b :: r2) (by simp)]
      simp

theorem lcsLength_eq_lcsRec (s1 s2 : List Char) :
    lcsLength s1 s2 = lcsRec s1.reverse s2.reverse := by
  rw [lcsLength, lcsTable_eq_specRow, specRow]
  cases s2 with
  | nil => simp [specRowAux, lcsRec_nil_right]
  | cons b bs =>
    rw [show specRowAux s1.reverse (b :: bs) []
        = lcsRec s1.reverse [b] :: specRowAux s1.reverse bs [b] from rfl]
    rw [List.getLast?_cons_cons]
    rw [show lcsRec s1.reverse [b] :: specRowAux s1.reverse bs [b]
        = specRowAux s1.reverse (b :: bs) [] from rfl]
    rw [specRowAux_getLast s1.reverse (b :: bs) [] (by simp)]
    simp

theorem sublist_tail_cons {c a : Char} {l x : List Char} (h : (c :: l).Sublist (a :: x)) :
    l.Sublist x := by
  cases h with
  | cons _ h' => exact (List.sublist_cons_self c l).trans h'
  | cons₂ _ h' => exact h'

theorem sublist_of_cons_ne {c a : Char} {l x : List Char} (h : (c :: l).Sublist (a :: x))
    (hne : c ≠ a) : (c :: l).Sublist x := by
  cases h with
  | cons _ h' => exact h'
  | cons₂ _ _ => exact absurd rfl hne

theorem sublist_cons_split {l x : List Char} {a : Char} (h : l.Sublist (a :: x)) :
    l.Sublist x ∨ ∃ l', l = a :: l' ∧ l'.Sublist x := by
  cases h with
  | cons _ h' => exact Or.inl h'
  | cons₂ _ h' => exact Or.inr ⟨_, rfl, h'⟩

theorem lcsRec_exists (x y : List Char) :
    ∃ l : List Char, l.Sublist x ∧ l.Sublist y ∧ l.length = lcsRec x y := by
  induction x, y using lcsRec.induct with
  | case1 y => exact ⟨[], List.nil_sublist _, List.nil_sublist _, by simp [lcsRec]⟩
  | case2 a x => exact ⟨[], List.nil_sublist _, List.nil_sublist _, by simp [lcsRec_nil_right]⟩
  | case3 x' b y' ih =>
    obtain ⟨l, h1, h2, h3⟩ := ih
    refine ⟨b :: l, h1.cons₂ b, h2.cons₂ b, ?_⟩
    rw [lcsRec_cons_cons, if_pos rfl, List.length_cons, h3]
  | case4 a x' b y' hne ih1 ih2 =>
    rw [lcsRec_cons_cons, if_neg hne]
    rcases le_total (lcsRec (a :: x') y') (lcsRec x' (b :: y')) with hle | hle
    · obtain ⟨l, h1, h2, h3⟩ := ih1
      exact ⟨l, h1.cons a, h2, by rw [max_eq_left hle, h3]⟩
    · obtain ⟨l, h1, h2, h3⟩ := ih2
      exact ⟨l, h1, h2.cons b, by rw [max_eq_right hle, h3]⟩

theorem lcsRec_upper_bound (x y : List Char) :
    ∀ l : List Char, l.Sublist x → l.Sublist y → l.length ≤ lcsRec x y := by
  induction x, y using lcsRec.induct with
  | case1 y => intro l h1 _; rw [List.sublist_nil.mp h1]; exact Nat.zero_le _
  | case2 a x => intro l _ h2; rw [List.sublist_nil.mp h2]; exact Nat.zero_le _
  | case3 x' b y' ih =>
    intro l h1 h2
    rw [lcsRec_cons_cons, if_pos rfl]
    cases l with
    | nil => simp
    | cons c l' =>
      by_cases hc : c = b
      · subst hc
        have hx := sublist_tail_cons h1
        have hy := sublist_tail_cons h2
        rw [List.length_cons]
        exact Nat.succ_le_succ (ih l' hx hy)
      · have hx := sublist_of_cons_ne h1 hc
        have hy := sublist_of_cons_ne h2 hc
        exact (ih (c :: l') hx hy).trans (Nat.le_succ _)
  | case4 a x' b y' hne ih1 ih2 =>
    intro l h1 h2
    rw [lcsRec_cons_cons, if_neg hne]
    rcases sublist_cons_split h1 with h1' | ⟨l', rfl, hl'⟩
    · exact (ih1 l h1' h2).trans (le_max_left _ _)
    · rcases sublist_cons_split h2 with h2' | ⟨l'', heq, hl''⟩
      · exact (ih2 (a :: l') h1 h2').trans (le_max_right _ _)
      · injection heq with hab _
        exact absurd hab hne

/-- C9: the dynamic-programming routine `_longest_common_subsequence`
computes exactly the length of a longest common subsequence of its two
arguments: some common subsequence attains the returned length, and no
common subsequence is longer.  The reference recurrence `lcsRec` is the
standard one (`+1` on a head match, else the maximum of the two drops),
and `lcsLength` provably agrees with it. -/
theorem c9_lcs_length_correct (s1 s2 : List Char) :
    (∃ l : List Char, l.Sublist s1 ∧ l.Sublist s2 ∧ l.length = lcsLength s1 s2) ∧
    (∀ l : List Char, l.Sublist s1 → l.Sublist s2 → l.length ≤ lcsLength s1 s2) := by
  rw [lcsLength_eq_lcsRec]
  constructor
  · obtain ⟨l, h1, h2, h3⟩ := lcsRec_exists s1.reverse s2.reverse
    refine ⟨l.reverse, ?_, ?_, ?_⟩
    · simpa using h1.reverse
    · simpa using h2.reverse
    · simpa using h3
  · intro l h1 h2
    have hb := lcsRec_upper_bound s1.reverse s2.reverse l.reverse h1.reverse h2.reverse
    simpa using hb

/-- Witness for C9 at a concrete input: the common subsequence `"bc"` of
`"abc"` and `"bcd"` is within the computed bound. -/
theorem c9_lcs_length_correct_witness :
    (['b', 'c'] : List Char).length ≤ lcsLength ("abc".toList) ("bcd".toList) :=
  (c9_lcs_length_correct ("abc".toList) ("bcd".toList)).2 ['b', 'c'] (by decide) (by decide)

theorem pyStarts_length_le : ∀ {a b : List Char}, pyStarts a b = true → a.length ≤ b.length := by
  intro a
  induction a with
  | nil => intro b _; simp
  | cons x xs ih =>
    intro b h
    cases b with
    | nil => simp [pyStarts] at h
    | cons y ys =>
      simp only [pyStarts, Bool.and_eq_true] at h
      simpa using ih h.2

theorem pyIn_length_le : ∀ {b a : List Char}, pyIn a b = true → a.length ≤ b.length := by
  intro b
  induction b with
  | nil =>
    intro a h
    simp only [pyIn, List.isEmpty_iff] at h
    simp [h]
  | cons c t ih =>
    intro a h
    simp only [pyIn, Bool.or_eq_true] at h
    rcases h with h | h
    · exact pyStarts_length_le h
    · exact (ih h).trans (by simp)

theorem nameScore_nonneg (s c : List Char) : 0 ≤ nameScore s c := by
  simp only [nameScore]
  set A := normalize_company_name s with hA
  set B := normalize_company_name c with hB
  clear_value A B
  split_ifs <;> positivity

theorem nameScore_le_max (s c : List Char) :
    nameScore s c ≤ max 100 (95 + ((coreWordsOf s).length : ℚ)) := by
  simp only [nameScore, coreWordsOf, searchWordsOf]
  set A := normalize_company_name s with hA
  set B := normalize_company_name c with hB
  clear_value A B
  have hcore : (0 : ℚ) ≤ (((pySplit A).dedup.filter (fun w => !(legalForms.contains w))).length : ℚ) := by
    positivity
  rw [le_max_iff]
  split_ifs with h1 h2 h3 h4 h5
  · left; linarith
  · right; linarith
  · have hlen : A.length ≤ B.length := pyIn_length_le h3
    have hcne : B ≠ [] := by
      intro hnil
      rw [hnil] at h3
      simp only [pyIn, List.isEmpty_iff] at h3
      exact h1 (h3.trans hnil.symm)
    have hcpos : (0 : ℚ) < (B.length : ℚ) := by
      have := List.length_pos.mpr hcne
      exact_mod_cast this
    have hdiv : (A.length : ℚ) / (B.length : ℚ) ≤ 1 := by
      rw [div_le_one hcpos]
      exact_mod_cast hlen
    left; linarith
  · have hlen : B.length ≤ A.length := pyIn_length_le h4
    have hsne : A ≠ [] := by
      intro hnil
      rw [hnil] at h4
      simp only [pyIn, List.isEmpty_iff] at h4
      exact h1 (hnil.trans h4.symm)
    have hspos : (0 : ℚ) < (A.length : ℚ) := by
      have := List.length_pos.mpr hsne
      exact_mod_cast this
    have hdiv : (B.length : ℚ) / (A.length : ℚ) ≤ 1 := by
      rw [div_le_one hspos]
      exact_mod_cast hlen
    left; linarith
  · set sw := (pySplit A).dedup with hsw
    set cw := (pySplit B).dedup with hcw
    have hinter : (sw.inter cw).length ≤ sw.length :=
      List.Sublist.length_le (List.filter_sublist _)
    have hmax : sw.length ≤ max sw.length cw.length := le_max_left _ _
    have hne : sw.inter cw ≠ [] := h5
    have hpos : 0 < (sw.inter cw).length := List.length_pos.mpr hne
    have hmaxpos : (0 : ℚ) < ((max sw.length cw.length : Nat) : ℚ) := by
      have : 0 < max sw.length cw.length := lt_of_lt_of_le (lt_of_lt_of_le hpos hinter) hmax
      exact_mod_cast this
    have hdiv : ((sw.inter cw).length : ℚ) / ((max sw.length cw.length : Nat) : ℚ) ≤ 1 := by
      rw [div_le_one hmaxpos]
      exact_mod_cast le_trans hinter hmax
    left; linarith
  · left; linarith

theorem nameScore_le (s c : List Char) :
    nameScore s c ≤ 100 + ((coreWordsOf s).length : ℚ) := by
  refine le_trans (nameScore_le_max s c) (max_le ?_ ?_)
  · have : (0 : ℚ) ≤ ((coreWordsOf s).length : ℚ) := by positivity
    linarith
  · linarith

theorem coreWords_le_tokens (s : List Char) :
    (coreWordsOf s).length ≤ (pySplit (normalize_company_name s)).length := by
  refine le_trans (List.Sublist.length_le (List.filter_sublist _)) ?_
  exact List.Sublist.length_le (List.dedup_sublist _)

theorem simTier_ge (q : ℚ) : 50 ≤ simTier q := by
  simp only [simTier]
  split_ifs <;> norm_num

theorem regBonus_ge_50 (target : Option (List Char)) (c : Company)
    (h : optTruthy c.hrb = true) : 50 ≤ regBonus target c := by
  simp only [regBonus, h, Bool.and_true, if_true]
  split_ifs with h1
  · exact simTier_ge _
  · norm_num

theorem regBonus_no_hrb (target : Option (List Char)) (c : Company)
    (h : optTruthy c.hrb = false) : regBonus target c = -50 := by
  simp [regBonus, h]

theorem finalScore_ge_50 (search : List Char) (target : Option (List Char)) (c : Company)
    (h : optTruthy c.hrb = true) : 50 ≤ finalScore search target c := by
  have h1 := regBonus_ge_50 target c h
  have h2 := nameScore_nonneg search c.name
  simp only [finalScore]
  nlinarith

theorem finalScore_no_hrb_le (search : List Char) (target : Option (List Char)) (c : Company)
    (h : optTruthy c.hrb = false) (htok : (pySplit (normalize_company_name search)).length ≤ 100) :
    finalScore search target c ≤ -30 := by
  have h2 := nameScore_le search c.name
  have h3 : ((coreWordsOf search).length : ℚ) ≤ 100 := by
    exact_mod_cast le_trans (coreWords_le_tokens search) htok
  rw [finalScore, regBonus_no_hrb target c h]
  set N := nameScore search c.name with hN
  clear_value N
  set K := ((coreWordsOf search).length : ℚ) with hK
  clear_value K
  linarith

theorem fbmStep_snd_mono (search : List Char) (target : Option (List Char))
    (acc : Option Company × ℚ) (c : Company) : acc.2 ≤ (fbmStep search target acc c).2 := by
  simp only [fbmStep]
  split_ifs with h1 h2
  · exact le_refl _
  · exact le_of_lt h2
  · exact le_refl _

theorem fbm_fold_snd_mono (search : List Char) (target : Option (List Char)) :
    ∀ (l : List Company) (acc : Option Company × ℚ),
      acc.2 ≤ (l.foldl (fbmStep search target) acc).2 := by
  intro l
  induction l with
  | nil => intro acc; exact le_refl _
  | cons d t ih =>
    intro acc
    exact le_trans (fbmStep_snd_mono search target acc d) (ih (fbmStep search target acc d))

theorem fbm_fold_snd_ge (search : List Char) (target : Option (List Char)) :
    ∀ (l : List Company) (acc : Option Company × ℚ) (c : Company),
      c ∈ l → c.name ≠ [] →
      finalScore search target c ≤ (l.foldl (fbmStep search target) acc).2 := by
  intro l
  induction l with
  | nil => intro acc c hmem; exact absurd hmem (List.not_mem_nil c)
  | cons d t ih =>
    intro acc c hmem hname
    rcases List.mem_cons.mp hmem with rfl | hmem'
    · refine le_trans ?_ (fbm_fold_snd_mono search target t (fbmStep search target acc c))
      simp only [fbmStep, if_neg hname]
      split_ifs with h2
      · exact le_refl _
      · exact le_of_not_lt h2
    · exact ih (fbmStep search target acc d) c hmem' hname

theorem fbm_fold_result (search : List Char) (target : Option (List Char)) :
    ∀ (l : List Company) (acc : Option Company × ℚ),
      l.foldl (fbmStep search target) acc = acc ∨
      ∃ c ∈ l, c.name ≠ [] ∧
        l.foldl (fbmStep search target) acc = (some c, finalScore search target c) := by
  intro l
  induction l with
  | nil => intro acc; exact Or.inl rfl
  | cons d t ih =>
    intro acc
    by_cases hstep : fbmStep search target acc d = acc
    · rcases ih acc with h | ⟨c, hmem, hname, heq⟩
      · exact Or.inl (by rw [List.foldl_cons, hstep, h])
      · exact Or.inr ⟨c, List.mem_cons_of_mem d hmem, hname, by rw [List.foldl_cons, hstep, heq]⟩
    · have hd : fbmStep search target acc d = (some d, finalScore search target d) ∧ d.name ≠ [] := by
        simp only [fbmStep] at hstep ⊢
        split_ifs at hstep ⊢ with h1 h2
        · exact absurd rfl hstep
        · exact ⟨rfl, h1⟩
        · exact absurd rfl hstep
      rcases ih (fbmStep search target acc d) with h | ⟨c, hmem, hname, heq⟩
      · refine Or.inr ⟨d, List.mem_cons_self d t, hd.2, ?_⟩
        rw [List.foldl_cons, h, hd.1]
      · exact Or.inr ⟨c, List.mem_cons_of_mem d hmem, hname, by rw [List.foldl_cons, heq]⟩

theorem fbm_all_no_hrb_none (search : List Char) (companies : List Company)
    (target : Option (List Char))
    (hall : ∀ c ∈ companies, optTruthy c.hrb = false)
    (htok : (pySplit (normalize_company_name search)).length ≤ 100) :
    find_best_match search companies target = none := by
  rcases fbm_fold_result search target companies (none, -1) with h | ⟨c, hcmem, hcname, heq⟩
  · rw [find_best_match, h]
  · exfalso
    have hmono := fbm_fold_snd_mono search target companies (none, -1)
    rw [heq] at hmono
    have hle := finalScore_no_hrb_le search target c (hall c hcmem) htok
    simp only at hmono
    linarith

/-- C10: whenever some candidate has a truthy name and a truthy
registration number and the canonical query name has at most 100 tokens,
`find_best_match` succeeds and its winner has a truthy registration
number: a candidate without one scores at most `-50 + 0.1 · nameScore ≤
-30`, while a documented candidate scores at least `50` (tier floor with
a query identifier, `+100` without). -/
theorem c10_winner_has_identifier (search : List Char) (companies : List Company)
    (target : Option (List Char))
    (hg : ∃ g ∈ companies, g.name ≠ [] ∧ optTruthy g.hrb = true)
    (htok : (pySplit (normalize_company_name search)).length ≤ 100) :
    ∃ c : Company, find_best_match search companies target = some c ∧ optTruthy c.hrb = true := by
  obtain ⟨g, hmem, hname, hhrb⟩ := hg
  have h50 : 50 ≤ finalScore search target g := finalScore_ge_50 search target g hhrb
  have hres := fbm_fold_snd_ge search target companies (none, -1) g hmem hname
  rcases fbm_fold_result search target companies (none, -1) with h | ⟨c, hcmem, hcname, heq⟩
  · rw [h] at hres
    simp only at hres
    linarith
  · refine ⟨c, by rw [find_best_match, heq], ?_⟩
    by_contra hfalse
    have hf : optTruthy c.hrb = false := by
      cases hcb : optTruthy c.hrb with
      | false => rfl
      | true => exact absurd hcb hfalse
    have hle := finalScore_no_hrb_le search target c hf htok
    rw [heq] at hres
    simp only at hres
    linarith

/-- Witness for C10: a single documented candidate is selected and keeps
its identifier. -/
theorem c10_winner_has_identifier_witness :
    ∃ c : Company, find_best_match ("Acme GmbH".toList)
        [⟨("Foo GmbH".toList), some ("123".toList)⟩] none = some c ∧ optTruthy c.hrb = true :=
  c10_winner_has_identifier ("Acme GmbH".toList)
    [⟨("Foo GmbH".toList), some ("123".toList)⟩] none
    ⟨⟨("Foo GmbH".toList), some ("123".toList)⟩, by decide, by decide, by decide⟩
    (by decide)

/-- C4 counterexample: a query identifier is supplied, it has similarity
0 with the (identifier-less) single candidate, and that candidate's
canonical name equals the query's exactly — yet `find_best_match`
returns `none` instead of the candidate: no identifier-ignoring retry
pass exists in the code. -/
theorem c4_counterexample :
    find_best_match ("acme".toList) [⟨("acme".toList), none⟩]
      (some ("HRB 111111".toList)) = none :=
  fbm_all_no_hrb_none ("acme".toList) [⟨("acme".toList), none⟩]
    (some ("HRB 111111".toList)) (by decide) (by decide)

/-- C4 amended: `find_best_match` performs a single scoring pass and
never reruns it with the identifier ignored.  When a query identifier is
supplied and every candidate lacks one (so the query identifier matches
no candidate), every candidate keeps the `-50` penalty, no final score
(at most `-30` for queries of at most 100 canonical tokens) exceeds the
initial best score of `-1`, and the resolver reports no match — even
when a candidate's canonical name exactly equals the query's. -/
theorem c4_no_fallback_rerun (search : List Char) (companies : List Company)
    (target : Option (List Char)) (_htarget : optTruthy target = true)
    (hall : ∀ c ∈ companies, optTruthy c.hrb = false)
    (htok : (pySplit (normalize_company_name search)).length ≤ 100) :
    find_best_match search companies target = none :=
  fbm_all_no_hrb_none search companies target hall htok

/-- Witness for the amended C4 at the counterexample scenario. -/
theorem c4_no_fallback_rerun_witness :
    find_best_match ("acme gmbh".toList) [⟨("acme gmbh".toList), none⟩]
      (some ("HRB 222222".toList)) = none :=
  c4_no_fallback_rerun ("acme gmbh".toList) [⟨("acme gmbh".toList), none⟩]
    (some ("HRB 222222".toList)) (by decide) (by decide) (by decide)

/-- C1 counterexample: with no identifiers anywhere, the exact-name
query `"Acme GmbH"` over the candidates `"Acme GmbH"`, `"Acme Holding
GmbH"` yields `none`, not the first candidate: both candidates receive
the `-50` penalty and their final scores never exceed the initial best
score of `-1`. -/
theorem c1_counterexample :
    find_best_match ("Acme GmbH".toList)
      [⟨("Acme GmbH".toList), none⟩, ⟨("Acme Holding GmbH".toList), none⟩] none = none :=
  fbm_all_no_hrb_none ("Acme GmbH".toList)
    [⟨("Acme GmbH".toList), none⟩, ⟨("Acme Holding GmbH".toList), none⟩] none
    (by decide) (by decide)

/-- C1 amended: in the exact-name no-identifier scenario the name scores
are 100 and 96 as the priority rules say, but both candidates carry the
`-50` penalty for a missing registration number, giving final scores
`-40` and `-40.4`; neither exceeds the initial best score of `-1`, so
`find_best_match` returns `none` rather than the first candidate. -/
theorem c1_amended_penalty_blocks_exact_match :
    nameScore ("Acme GmbH".toList) ("Acme GmbH".toList) = 100 ∧
    nameScore ("Acme GmbH".toList) ("Acme Holding GmbH".toList) = 96 ∧
    finalScore ("Acme GmbH".toList) none ⟨("Acme GmbH".toList), none⟩ = -40 ∧
    finalScore ("Acme GmbH".toList) none ⟨("Acme Holding GmbH".toList), none⟩ = -202/5 ∧
    find_best_match ("Acme GmbH".toList)
      [⟨("Acme GmbH".toList), none⟩, ⟨("Acme Holding GmbH".toList), none⟩] none = none := by
  have h1 : nameScore ("Acme GmbH".toList) ("Acme GmbH".toList) = 100 := by
    simp only [nameScore]
    rw [if_pos (by decide)]
  have h2 : nameScore ("Acme GmbH".toList) ("Acme Holding GmbH".toList) = 96 := by
    simp only [nameScore]
    rw [if_neg (by decide), if_pos (by decide),
      show ((pySplit (normalize_company_name ("Acme GmbH".toList))).dedup.filter
        (fun w => !(legalForms.contains w))).length = 1 from by decide]
    norm_num
  refine ⟨h1, h2, ?_, ?_, ?_⟩
  · simp only [finalScore]
    rw [regBonus_no_hrb none _ (by decide)]
    simp only [h1]
    norm_num
  · simp only [finalScore]
    rw [regBonus_no_hrb none _ (by decide)]
    simp only [h2]
    norm_num
  · exact fbm_all_no_hrb_none ("Acme GmbH".toList)
      [⟨("Acme GmbH".toList), none⟩, ⟨("Acme Holding GmbH".toList), none⟩] none
      (by decide) (by decide)

theorem c2_regSim_exact : regSim ("259502".toList) ("259 502".toList) = 1 := by
  simp only [regSim]
  rw [if_neg (by decide), if_pos (by decide)]

theorem c2_regSim_far : regSim ("259502".toList) ("999999".toList) = 1/6 := by
  have hlcs : lcsLength (normReg ("259502".toList)) (normReg ("999999".toList)) = 1 := by decide
  have hd1 : (normReg ("259502".toList)).filter Char.isDigit = normReg ("259502".toList) := by decide
  have hd2 : (normReg ("999999".toList)).filter Char.isDigit = normReg ("999999".toList) := by decide
  have hlen : max (normReg ("259502".toList)).length (normReg ("999999".toList)).length = 6 := by decide
  simp only [regSim]
  rw [if_neg (by decide), if_neg (by decide), if_neg (by decide)]
  rw [hd1, hd2, if_neg (by decide)]
  rw [hlcs, hlen]
  norm_num

/-- C2: with query identifier `"259502"`, the candidate whose number is
`"259 502"` wins for every query name (of at most 100 canonical tokens):
whitespace normalization makes the identifiers equal, similarity 1.0
lands in the `≥ 0.95` tier, and the bonus of 1000 outweighs any name
score of the second candidate (whose own similarity `1/6` only earns the
floor bonus of 50). -/
theorem c2_registration_identity_dominates (search : List Char)
    (htok : (pySplit (normalize_company_name search)).length ≤ 100) :
    find_best_match search
      [⟨("Unrelated Inc".toList), some ("259 502".toList)⟩,
       ⟨("Acme GmbH".toList), some ("999999".toList)⟩]
      (some ("259502".toList))
      = some ⟨("Unrelated Inc".toList), some ("259 502".toList)⟩ := by
  have hbonus_u : regBonus (some ("259502".toList))
      ⟨("Unrelated Inc".toList), some ("259 502".toList)⟩ = 1000 := by
    simp only [regBonus]
    rw [if_pos (by decide)]
    rw [show ((some ("259502".toList)).getD [] : List Char) = ("259502".toList) from rfl]
    rw [show ((⟨("Unrelated Inc".toList), some ("259 502".toList)⟩ : Company).hrb.getD [] : List Char)
        = ("259 502".toList) from rfl]
    rw [c2_regSim_exact]
    simp only [simTier]
    rw [if_pos (by norm_num)]
  have hbonus_a : regBonus (some ("259502".toList))
      ⟨("Acme GmbH".toList), some ("999999".toList)⟩ = 50 := by
    simp only [regBonus]
    rw [if_pos (by decide)]
    rw [show ((some ("259502".toList)).getD [] : List Char) = ("259502".toList) from rfl]
    rw [show ((⟨("Acme GmbH".toList), some ("999999".toList)⟩ : Company).hrb.getD [] : List Char)
        = ("999999".toList) from rfl]
    rw [c2_regSim_far]
    simp only [simTier]
    rw [if_neg (by norm_num), if_neg (by norm_num), if_neg (by norm_num), if_neg (by norm_num)]
  have hfs_u : 1000 ≤ finalScore search (some ("259502".toList))
      ⟨("Unrelated Inc".toList), some ("259 502".toList)⟩ := by
    have hns := nameScore_nonneg search ("Unrelated Inc".toList)
    simp only [finalScore, hbonus_u]
    linarith
  have hfs_a : finalScore search (some ("259502".toList))
      ⟨("Acme GmbH".toList), some ("999999".toList)⟩ ≤ 70 := by
    have hns := nameScore_le search ("Acme GmbH".toList)
    have hcore : ((coreWordsOf search).length : ℚ) ≤ 100 := by
      exact_mod_cast le_trans (coreWords_le_tokens search) htok
    simp only [finalScore, hbonus_a]
    linarith
  have hstep1 : fbmStep search (some ("259502".toList)) ((none, -1) : Option Company × ℚ)
      ⟨("Unrelated Inc".toList), some ("259 502".toList)⟩
      = (some ⟨("Unrelated Inc".toList), some ("259 502".toList)⟩,
         finalScore search (some ("259502".toList))
           ⟨("Unrelated Inc".toList), some ("259 502".toList)⟩) := by
    simp only [fbmStep]
    rw [if_neg (by decide),
      if_pos (lt_of_lt_of_le (show (-1 : ℚ) < 1000 by norm_num) hfs_u)]
  have hstep2 : fbmStep search (some ("259502".toList))
      (some ⟨("Unrelated Inc".toList), some ("259 502".toList)⟩,
       finalScore search (some ("259502".toList))
         ⟨("Unrelated Inc".toList), some ("259 502".toList)⟩)
      ⟨("Acme GmbH".toList), some ("999999".toList)⟩
      = (some ⟨("Unrelated Inc".toList), some ("259 502".toList)⟩,
         finalScore search (some ("259502".toList))
           ⟨("Unrelated Inc".toList), some ("259 502".toList)⟩) := by
    simp only [fbmStep]
    rw [if_neg (by decide),
      if_neg (not_lt.mpr (le_trans hfs_a (le_trans (show (70 : ℚ) ≤ 1000 by norm_num) hfs_u)))]
  rw [find_best_match]
  rw [show ([⟨("Unrelated Inc".toList), some ("259 502".toList)⟩,
      ⟨("Acme GmbH".toList), some ("999999".toList)⟩] : List Company).foldl
        (fbmStep search (some ("259502".toList))) ((none, -1) : Option Company × ℚ)
      = fbmStep search (some ("259502".toList))
          (fbmStep search (some ("259502".toList)) ((none, -1) : Option Company × ℚ)
            ⟨("Unrelated Inc".toList), some ("259 502".toList)⟩)
          ⟨("Acme GmbH".toList), some ("999999".toList)⟩ from rfl]
  rw [hstep1, hstep2]

/-- Witness for C2 at the query name of the matching scenario. -/
theorem c2_registration_identity_dominates_witness :
    find_best_match ("Acme GmbH".toList)
      [⟨("Unrelated Inc".toList), some ("259 502".toList)⟩,
       ⟨("Acme GmbH".toList), some ("999999".toList)⟩]
      (some ("259502".toList))
      = some ⟨("Unrelated Inc".toList), some ("259 502".toList)⟩ :=
  c2_registration_identity_dominates ("Acme GmbH".toList) (by decide)

/-- C8 counterexample: the query `"a b c d e f"` has six core words, each
a substring of the candidate `"abcdef"`, so priority rule 2 scores
`95 + 6 = 101 > 100` — the claimed interval `[0, 100]` is exceeded. -/
theorem c8_counterexample :
    100 < nameScore ("a b c d e f".toList) ("abcdef".toList) := by
  simp only [nameScore]
  rw [if_neg (by decide), if_pos (by decide),
    show ((pySplit (normalize_company_name ("a b c d e f".toList))).dedup.filter
      (fun w => !(legalForms.contains w))).length = 6 from by decide]
  norm_num

/-- C8 amended: the five-rule name score is nonnegative and bounded by
`max 100 (95 + number of core query words)`; the claimed upper bound of
100 therefore holds exactly when the query has at most five core words,
and rule 2 can exceed it by the word count otherwise. -/
theorem c8_name_score_bounds (s c : List Char) :
    0 ≤ nameScore s c ∧ nameScore s c ≤ max 100 (95 + ((coreWordsOf s).length : ℚ)) :=
  ⟨nameScore_nonneg s c, nameScore_le_max s c⟩

/-- C7 counterexample: the table entry `'aktien' → 'ag'` rewrites the
prefix of `aktiengesellschaft`, so the full legal form and its
abbreviation do not canonicalize equally. -/
theorem c7_counterexample :
    normalize_company_name ("Acme Aktiengesellschaft".toList)
      ≠ normalize_company_name ("Acme AG".toList) := by decide

/-- C7 amended: `canonicalize("Acme Aktiengesellschaft")` is
`"acme aggesellschaft"` while `canonicalize("Acme AG")` is `"acme ag"` —
the two differ.  Legal-form folding does hold for phrases the table
lists in full, e.g. `"Gesellschaft mit beschränkter Haftung"` folds to
`"gmbh"`, making `"Acme Gesellschaft mit beschränkter Haftung"` and
`"Acme GmbH"` canonically equal. -/
theorem c7_amended_folding :
    normalize_company_name ("Acme Aktiengesellschaft".toList) = ("acme aggesellschaft".toList) ∧
    normalize_company_name ("Acme AG".toList) = ("acme ag".toList) ∧
    normalize_company_name ("Acme Gesellschaft mit beschränkter Haftung".toList)
      = normalize_company_name ("Acme GmbH".toList) :=
  ⟨by decide, by decide, by decide⟩

/-- C3: behaviour of the explicit-registration parser on the claimed
inputs.  `"HRB 259502"`, `"259502"` and `"259502A"` parse as claimed
(prefix stripped, HRB default, optional suffix letter kept) and `"abc"`
yields no identifier; but `"hrb: 259502"` yields no identifier instead
of the claimed `{HRB, "259502"}`: the regex alternation lists the bare
prefix before its `\s*:?\s*` variant, so only `"hrb"` is removed, the
leftover `":259502"` fails the digit-shape check, and the function warns
and returns `None`. -/
theorem c3_parser_on_claimed_inputs :
    extractRegExplicit ("HRB 259502".toList) = some ("HRB 259502".toList) ∧
    extractRegExplicit ("259502".toList) = some ("HRB 259502".toList) ∧
    extractRegExplicit ("259502A".toList) = some ("HRB 259502A".toList) ∧
    extractRegExplicit ("abc".toList) = none ∧
    extractRegExplicit ("hrb: 259502".toList) = none :=
  ⟨by decide, by decide, by decide, by decide, by decide⟩

/-- C5: resolving any query against an empty candidate list reports the
no-candidates outcome of `ScraperApp.run` (its empty-list guard fires
before `find_best_match` is consulted), never the no-match outcome. -/
theorem c5_empty_candidates (searchName : List Char) (target : Option (List Char)) :
    resolveOutcome searchName [] target = MatchOutcome.noCandidates ∧
    resolveOutcome searchName [] target ≠ MatchOutcome.noMatchFound := by
  refine ⟨rfl, ?_⟩
  intro hcon
  rw [show resolveOutcome searchName [] target = MatchOutcome.noCandidates from rfl] at hcon
  exact absurd hcon (by simp)

/-- C6 counterexample: deleting the noise word `hrb` from `"hhrbrb"`
splices a fresh `"hrb"` together, so one more canonicalization pass
deletes it too: the canonicalizer is not idempotent. -/
theorem c6_counterexample :
    normalize_company_name (normalize_company_name ("hhrbrb".toList))
      ≠ normalize_company_name ("hhrbrb".toList) := by decide

theorem pyToLower_cases (c : Char) :
    pyToLower c = c ∨ pyToLower c ∈
      ['a', 'b', 'c', 'd', 'e', 'f', 'g', 'h', 'i', 'j', 'k', 'l', 'm',
       'n', 'o', 'p', 'q', 'r', 's', 't', 'u', 'v', 'w', 'x', 'y', 'z'] := by
  rw [pyToLower]
  cases hf : lowerPairs.find? (fun p => p.1 = c) with
  | none => exact Or.inl rfl
  | some p =>
    right
    have hmem : p ∈ lowerPairs := List.mem_of_find?_eq_some hf
    revert hmem
    exact fun hmem => by
      have : ∀ q ∈ lowerPairs, q.2 ∈
          ['a', 'b', 'c', 'd', 'e', 'f', 'g', 'h', 'i', 'j', 'k', 'l', 'm',
           'n', 'o', 'p', 'q', 'r', 's', 't', 'u', 'v', 'w', 'x', 'y', 'z'] := by decide
      exact this p hmem

theorem pyToLower_fix_lowercase :
    ∀ d ∈ ['a', 'b', 'c', 'd', 'e', 'f', 'g', 'h', 'i', 'j', 'k', 'l', 'm',
           'n', 'o', 'p', 'q', 'r', 's', 't', 'u', 'v', 'w', 'x', 'y', 'z'],
      pyToLower d = d := by decide

theorem pyToLower_idem (c : Char) : pyToLower (pyToLower c) = pyToLower c := by
  rcases pyToLower_cases c with h | h
  · rw [h]
    exact h
  · exact pyToLower_fix_lowercase _ h

theorem mem_pyReplaceAux (old new : List Char) :
    ∀ (fuel : Nat) (s : List Char) (c : Char),
      c ∈ pyReplaceAux old new fuel s → c ∈ s ∨ c ∈ new := by
  intro fuel
  induction fuel with
  | zero => intro s c h; exact Or.inl h
  | succ f ih =>
    intro s c h
    cases s with
    | nil => exact Or.inl h
    | cons a rest =>
      rw [pyReplaceAux] at h
      split_ifs at h with hocc
      · rcases List.mem_append.mp h with h' | h'
        · exact Or.inr h'
        · rcases ih _ c h' with h'' | h''
          · exact Or.inl (List.mem_cons_of_mem a (List.mem_of_mem_drop h''))
          · exact Or.inr h''
      · rcases List.mem_cons.mp h with rfl | h'
        · exact Or.inl (List.mem_cons_self _ _)
        · rcases ih _ c h' with h'' | h''
          · exact Or.inl (List.mem_cons_of_mem a h'')
          · exact Or.inr h''

theorem mem_pyReplace (old new s : List Char) (c : Char)
    (h : c ∈ pyReplace old new s) : c ∈ s ∨ c ∈ new :=
  mem_pyReplaceAux old new s.length s c h

theorem pyIn_cons_parts {a : List Char} {c : Char} {t : List Char}
    (h : pyIn a (c :: t) = false) : pyStarts a (c :: t) = false ∧ pyIn a t = false := by
  rw [pyIn, Bool.or_eq_false_iff] at h
  exact h

theorem pyReplaceAux_no_occ (old new : List Char) (_hold : old ≠ []) :
    ∀ (fuel : Nat) (s : List Char), pyIn old s = false → s.length ≤ fuel →
      pyReplaceAux old new fuel s = s := by
  intro fuel
  induction fuel with
  | zero => intro s _ _; rfl
  | succ f ih =>
    intro s hocc hlen
    cases s with
    | nil => rfl
    | cons a rest =>
      obtain ⟨h1, h2⟩ := pyIn_cons_parts hocc
      rw [pyReplaceAux, if_neg (by simp [h1]), ih rest h2 (by simpa using Nat.le_of_succ_le_succ hlen)]

theorem pyReplace_no_occ (old new s : List Char) (hold : old ≠ [])
    (hocc : pyIn old s = false) : pyReplace old new s = s :=
  pyReplaceAux_no_occ old new hold s.length s hocc (le_refl _)

theorem mem_fold_replace :
    ∀ (L : List (List Char × List Char)) (s : List Char) (c : Char),
      c ∈ L.foldl (fun acc p => pyReplace p.1 p.2 acc) s → c ∈ s ∨ ∃ p ∈ L, c ∈ p.2 := by
  intro L
  induction L with
  | nil => intro s c h; exact Or.inl h
  | cons p t ih =>
    intro s c h
    rw [List.foldl_cons] at h
    rcases ih _ c h with h' | ⟨q, hq, hcq⟩
    · rcases mem_pyReplace _ _ _ _ h' with h'' | h''
      · exact Or.inl h''
      · exact Or.inr ⟨p, List.mem_cons_self _ _, h''⟩
    · exact Or.inr ⟨q, List.mem_cons_of_mem _ hq, hcq⟩

theorem mem_fold_noise :
    ∀ (L : List (List Char)) (s : List Char) (c : Char),
      c ∈ L.foldl (fun acc w => pyReplace w [] acc) s → c ∈ s := by
  intro L
  induction L with
  | nil => intro s c h; exact h
  | cons w t ih =>
    intro s c h
    rw [List.foldl_cons] at h
    rcases mem_pyReplace _ _ _ _ (ih _ c h) with h' | h'
    · exact h'
    · exact absurd h' (List.not_mem_nil c)

theorem fold_replace_no_occ :
    ∀ (L : List (List Char × List Char)) (s : List Char),
      (∀ p ∈ L, p.1 ≠ [] ∧ pyIn p.1 s = false) →
      L.foldl (fun acc p => pyReplace p.1 p.2 acc) s = s := by
  intro L
  induction L with
  | nil => intro s _; rfl
  | cons p t ih =>
    intro s h
    rw [List.foldl_cons,
      pyReplace_no_occ p.1 p.2 s (h p (List.mem_cons_self _ _)).1 (h p (List.mem_cons_self _ _)).2]
    exact ih s (fun q hq => h q (List.mem_cons_of_mem _ hq))

theorem fold_noise_no_occ :
    ∀ (L : List (List Char)) (s : List Char),
      (∀ w ∈ L, w ≠ [] ∧ pyIn w s = false) →
      L.foldl (fun acc w => pyReplace w [] acc) s = s := by
  intro L
  induction L with
  | nil => intro s _; rfl
  | cons w t ih =>
    intro s h
    rw [List.foldl_cons,
      pyReplace_no_occ w [] s (h w (List.mem_cons_self _ _)).1 (h w (List.mem_cons_self _ _)).2]
    exact ih s (fun q hq => h q (List.mem_cons_of_mem _ hq))

theorem subWs_head? :
    ∀ s : List Char,
      (subWs s).head? = s.head?.map (fun c => if pyIsSpace c then ' ' else c) := by
  intro s
  induction s with
  | nil => rfl
  | cons c1 rest ih =>
    cases rest with
    | nil =>
      rw [subWs]
      split_ifs with h <;> simp [h]
    | cons c2 rest2 =>
      rw [subWs]
      split_ifs with h12 h1
      · rw [ih]
        have hab : pyIsSpace c1 = true ∧ pyIsSpace c2 = true := by simpa using h12
        simp [hab.1, hab.2]
      · simp [h1]
      · simp [h1]

theorem subWs_space_char :
    ∀ s : List Char, ∀ c ∈ subWs s, pyIsSpace c = true → c = ' ' := by
  intro s
  induction s with
  | nil => intro c hc; exact absurd hc (List.not_mem_nil c)
  | cons c1 rest ih =>
    cases rest with
    | nil =>
      intro c hc hsp
      rw [subWs] at hc
      split_ifs at hc with h
      · simpa using hc
      · rw [List.mem_singleton] at hc
        subst hc
        rw [hsp] at h
        exact absurd rfl h
    | cons c2 rest2 =>
      intro c hc hsp
      rw [subWs] at hc
      split_ifs at hc with h12 h1
      · exact ih c hc hsp
      · rcases List.mem_cons.mp hc with rfl | hc'
        · rfl
        · exact ih c hc' hsp
      · rcases List.mem_cons.mp hc with rfl | hc'
        · rw [hsp] at h1
          exact absurd rfl h1
        · exact ih c hc' hsp

theorem subWs_chain : ∀ s : List Char, noTwoSpaces (subWs s) := by
  intro s
  induction s with
  | nil => exact List.chain'_nil
  | cons c1 rest ih =>
    cases rest with
    | nil =>
      rw [subWs]
      split_ifs <;> exact List.chain'_singleton _
    | cons c2 rest2 =>
      rw [subWs]
      split_ifs with h12 h1
      · exact ih
      · refine List.chain'_cons'.mpr ⟨?_, ih⟩
        intro y hy
        have hy' : y = if pyIsSpace c2 = true then ' ' else c2 := by
          rw [subWs_head?] at hy
          simp only [List.head?_cons, Option.map_some'] at hy
          exact (Option.mem_some_iff.mp hy).symm
        subst hy'
        intro hcon
        have hc2 : pyIsSpace c2 = false := by
          cases hcc : pyIsSpace c2 with
          | false => rfl
          | true => exact absurd (by simp [h1, hcc] : (pyIsSpace c1 && pyIsSpace c2) = true) h12
        rw [if_neg (by simp [hc2])] at hcon
        exact absurd hcon.2 (by simp [hc2])
      · refine List.chain'_cons'.mpr ⟨?_, ih⟩
        intro y hy
        intro hcon
        exact h1 hcon.1

theorem subWs_fixed :
    ∀ s : List Char, noTwoSpaces s → (∀ c ∈ s, pyIsSpace c = true → c = ' ') →
      subWs s = s := by
  intro s
  induction s with
  | nil => intro _ _; rfl
  | cons c1 rest ih =>
    cases rest with
    | nil =>
      intro _ hsp
      rw [subWs]
      split_ifs with h
      · rw [hsp c1 (List.mem_singleton_self c1) h]
      · rfl
    | cons c2 rest2 =>
      intro hchain hsp
      have hR : ¬(pyIsSpace c1 = true ∧ pyIsSpace c2 = true) :=
        (List.chain'_cons.mp hchain).1
      have htl : noTwoSpaces (c2 :: rest2) := (List.chain'_cons.mp hchain).2
      have h12 : (pyIsSpace c1 && pyIsSpace c2) = false := by
        cases ha : pyIsSpace c1 with
        | false => rfl
        | true =>
          cases hb : pyIsSpace c2 with
          | false => rfl
          | true => exact absurd ⟨ha, hb⟩ hR
      rw [subWs, if_neg (by simp [h12])]
      have hrest : subWs (c2 :: rest2) = c2 :: rest2 :=
        ih htl (fun c hc hspc => hsp c (List.mem_cons_of_mem c1 hc) hspc)
      rw [hrest]
      split_ifs with h1
      · rw [hsp c1 (List.mem_cons_self c1 _) h1]
      · rfl

theorem dropWhile_head_false {p : Char → Bool} :
    ∀ (s : List Char) (c : Char) (t : List Char),
      List.dropWhile p s = c :: t → p c = false := by
  intro s
  induction s with
  | nil => intro c t h; exact absurd h (by simp)
  | cons a rest ih =>
    intro c t h
    rw [List.dropWhile_cons] at h
    split_ifs at h with ha
    · exact ih c t h
    · cases h
      simpa using ha

theorem mem_dropWhile {p : Char → Bool} :
    ∀ (s : List Char) (c : Char), c ∈ s.dropWhile p → c ∈ s := by
  intro s
  induction s with
  | nil => intro c h; exact h
  | cons a rest ih =>
    intro c h
    rw [List.dropWhile_cons] at h
    split_ifs at h with ha
    · exact List.mem_cons_of_mem a (ih c h)
    · exact h

theorem mem_pyStrip (s : List Char) (c : Char) (h : c ∈ pyStrip s) : c ∈ s := by
  rw [pyStrip] at h
  rw [List.mem_reverse] at h
  have h2 := mem_dropWhile _ c h
  rw [List.mem_reverse] at h2
  exact mem_dropWhile _ c h2

theorem getLast?_dropWhile_of_ne_nil {p : Char → Bool} :
    ∀ (s : List Char), s.dropWhile p ≠ [] → (s.dropWhile p).getLast? = s.getLast? := by
  intro s
  induction s with
  | nil => intro h; exact absurd rfl h
  | cons a rest ih =>
    intro h
    rw [List.dropWhile_cons]
    rw [List.dropWhile_cons] at h
    split_ifs at h with ha
    · rw [if_pos ha]
      cases hr : rest with
      | nil =>
        rw [hr] at h
        simp at h
      | cons b rb =>
        rw [← hr, ih (by rw [hr] at h ⊢; exact h), hr, List.getLast?_cons_cons]
    · rw [if_neg ha]

theorem map_self_of_fixed :
    ∀ (l : List Char) (f : Char → Char), (∀ c ∈ l, f c = c) → l.map f = l := by
  intro l f
  induction l with
  | nil => intro _; rfl
  | cons a t ih =>
    intro h
    rw [List.map_cons, h a (List.mem_cons_self a t), ih (fun c hc => h c (List.mem_cons_of_mem a hc))]

theorem pyStrip_head_false :
    ∀ (s : List Char) (c : Char) (t : List Char),
      pyStrip s = c :: t → pyIsSpace c = false := by
  intro s c t h
  rw [pyStrip] at h
  have hw : List.dropWhile pyIsSpace ((List.dropWhile pyIsSpace s).reverse) ≠ [] := by
    intro hnil
    rw [hnil] at h
    exact absurd h.symm (List.cons_ne_nil c t)
  have hlastw : (List.dropWhile pyIsSpace ((List.dropWhile pyIsSpace s).reverse)).getLast? = some c := by
    rw [← List.head?_reverse, h, List.head?_cons]
  rw [getLast?_dropWhile_of_ne_nil _ hw, List.getLast?_reverse] at hlastw
  cases hv : List.dropWhile pyIsSpace s with
  | nil =>
    rw [hv] at hlastw
    exact absurd hlastw (by simp)
  | cons d v' =>
    rw [hv, List.head?_cons] at hlastw
    have hd : d = c := by simpa using hlastw
    subst hd
    exact dropWhile_head_false s d v' hv

theorem pyStrip_last_false :
    ∀ (s : List Char) (c : Char), (pyStrip s).getLast? = some c → pyIsSpace c = false := by
  intro s c h
  rw [pyStrip, List.getLast?_reverse] at h
  cases hw : List.dropWhile pyIsSpace ((List.dropWhile pyIsSpace s).reverse) with
  | nil =>
    rw [hw] at h
    exact absurd h (by simp)
  | cons d w' =>
    rw [hw, List.head?_cons] at h
    have hd : d = c := by simpa using h
    subst hd
    exact dropWhile_head_false _ d w' hw

theorem pyStrip_eq_self (s : List Char)
    (hhead : ∀ c t, s = c :: t → pyIsSpace c = false)
    (hlast : ∀ c, s.getLast? = some c → pyIsSpace c = false) :
    pyStrip s = s := by
  rw [pyStrip]
  have h1 : List.dropWhile pyIsSpace s = s := by
    cases hs : s with
    | nil => simp
    | cons a t => rw [List.dropWhile_cons, if_neg (by simp [hhead a t hs])]
  rw [h1]
  have h2 : List.dropWhile pyIsSpace s.reverse = s.reverse := by
    rcases hr : s.reverse with _ | ⟨a, t⟩
    · rfl
    · have ha : s.getLast? = some a := by rw [← List.head?_reverse, hr, List.head?_cons]
      rw [List.dropWhile_cons, if_neg (by simp [hlast a ha])]
  rw [h2, List.reverse_reverse]

theorem chain'_dropWhile {R : Char → Char → Prop} {p : Char → Bool} :
    ∀ (s : List Char), List.Chain' R s → List.Chain' R (List.dropWhile p s) := by
  intro s
  induction s with
  | nil => intro h; exact h
  | cons a rest ih =>
    intro h
    rw [List.dropWhile_cons]
    split_ifs with ha
    · exact ih (List.chain'_cons'.mp h).2
    · exact h

theorem noTwoSpaces_reverse {s : List Char} (h : noTwoSpaces s) : noTwoSpaces s.reverse := by
  rw [noTwoSpaces, List.chain'_reverse]
  exact List.Chain'.imp (fun a b hab => fun hc => hab ⟨hc.2, hc.1⟩) h

theorem pyStrip_chain (s : List Char) (h : noTwoSpaces s) : noTwoSpaces (pyStrip s) := by
  rw [pyStrip]
  exact noTwoSpaces_reverse (chain'_dropWhile _ (noTwoSpaces_reverse (chain'_dropWhile _ h)))

theorem mem_subWs :
    ∀ (s : List Char) (c : Char), c ∈ subWs s → c ∈ s ∨ c = ' ' := by
  intro s
  induction s with
  | nil => intro c hc; exact Or.inl hc
  | cons c1 rest ih =>
    cases rest with
    | nil =>
      intro c hc
      rw [subWs] at hc
      split_ifs at hc with h
      · exact Or.inr (List.mem_singleton.mp hc)
      · exact Or.inl hc
    | cons c2 rest2 =>
      intro c hc
      rw [subWs] at hc
      split_ifs at hc with h12 h1
      · rcases ih c hc with h' | h'
        · exact Or.inl (List.mem_cons_of_mem c1 h')
        · exact Or.inr h'
      · rcases List.mem_cons.mp hc with rfl | hc'
        · exact Or.inr rfl
        · rcases ih c hc' with h' | h'
          · exact Or.inl (List.mem_cons_of_mem c1 h')
          · exact Or.inr h'
      · rcases List.mem_cons.mp hc with rfl | hc'
        · exact Or.inl (List.mem_cons_self c _)
        · rcases ih c hc' with h' | h'
          · exact Or.inl (List.mem_cons_of_mem c1 h')
          · exact Or.inr h'

theorem legal_abbrev_lower : ∀ p ∈ legalFormMappings, ∀ a ∈ p.2, pyToLower a = a := by decide

theorem legal_keys_ne_nil : ∀ p ∈ legalFormMappings, p.1 ≠ ([] : List Char) := by decide

theorem noise_ne_nil : ∀ w ∈ noiseWords, w ≠ ([] : List Char) := by decide

theorem normalize_eq_mid (x : List Char) :
    normalize_company_name x = pyStrip (subWs (normalizeMid x)) := rfl

section CanonicalizerFixedPoint

attribute [local irreducible] legalFormMappings noiseWords pyReplaceAux

theorem normalize_chars_lower (x : List Char) :
    ∀ c ∈ normalize_company_name x, pyToLower c = c := by
  intro c hc
  simp only [normalize_company_name] at hc
  have h1 := mem_pyStrip _ _ hc
  rcases mem_subWs _ _ h1 with h2 | rfl
  · rcases List.mem_map.mp h2 with ⟨a, ha, hga⟩
    have hlow : pyToLower a = a → pyToLower c = c := by
      intro hfix
      by_cases hcond : (isWordChar a || pyIsSpace a) = true
      · rw [if_pos hcond] at hga
        rw [← hga]
        exact hfix
      · rw [if_neg hcond] at hga
        rw [← hga]
        decide
    apply hlow
    rcases mem_fold_replace _ _ a (mem_fold_noise _ _ a ha) with h3 | ⟨p, hp, hap⟩
    · have h4 := mem_pyStrip _ _ h3
      rcases List.mem_map.mp h4 with ⟨b, _, hb⟩
      rw [← hb]
      exact pyToLower_idem b
    · exact legal_abbrev_lower p hp a hap
  · decide

theorem normalize_chars_word (x : List Char) :
    ∀ c ∈ normalize_company_name x, (isWordChar c || pyIsSpace c) = true := by
  intro c hc
  simp only [normalize_company_name] at hc
  have h1 := mem_pyStrip _ _ hc
  rcases mem_subWs _ _ h1 with h2 | rfl
  · rcases List.mem_map.mp h2 with ⟨a, _, hga⟩
    by_cases hcond : (isWordChar a || pyIsSpace a) = true
    · rw [if_pos hcond] at hga
      rw [← hga]
      exact hcond
    · rw [if_neg hcond] at hga
      rw [← hga]
      decide
  · decide

theorem normalize_space_char (x : List Char) :
    ∀ c ∈ normalize_company_name x, pyIsSpace c = true → c = ' ' := by
  intro c hc hsp
  simp only [normalize_company_name] at hc
  exact subWs_space_char _ c (mem_pyStrip _ _ hc) hsp

theorem normalize_chain (x : List Char) : noTwoSpaces (normalize_company_name x) := by
  rw [normalize_eq_mid]
  exact pyStrip_chain _ (subWs_chain _)

theorem normalize_head (x : List Char) :
    ∀ (c : Char) (t : List Char), normalize_company_name x = c :: t → pyIsSpace c = false := by
  intro c t h
  simp only [normalize_company_name] at h
  exact pyStrip_head_false _ c t h

theorem normalize_last (x : List Char) :
    ∀ c : Char, (normalize_company_name x).getLast? = some c → pyIsSpace c = false := by
  intro c h
  simp only [normalize_company_name] at h
  exact pyStrip_last_false _ c h

theorem normalize_fixed_point (y : List Char)
    (hlower : ∀ c ∈ y, pyToLower c = c)
    (hword : ∀ c ∈ y, (isWordChar c || pyIsSpace c) = true)
    (hspc : ∀ c ∈ y, pyIsSpace c = true → c = ' ')
    (hchain : noTwoSpaces y)
    (hhead : ∀ (c : Char) (t : List Char), y = c :: t → pyIsSpace c = false)
    (hlast : ∀ c : Char, y.getLast? = some c → pyIsSpace c = false)
    (hLegal : ∀ p ∈ legalFormMappings, pyIn p.1 y = false)
    (hNoise : ∀ w ∈ noiseWords, pyIn w y = false) :
    normalize_company_name y = y := by
  have hkeys := legal_keys_ne_nil
  have hnz := noise_ne_nil
  have e0 : pyLower y = y := map_self_of_fixed y pyToLower hlower
  have e1 : pyStrip y = y := pyStrip_eq_self y hhead hlast
  have e2 : legalFormMappings.foldl (fun acc p => pyReplace p.1 p.2 acc) y = y :=
    fold_replace_no_occ _ y (fun p hp => ⟨hkeys p hp, hLegal p hp⟩)
  have e3 : noiseWords.foldl (fun acc w => pyReplace w [] acc) y = y :=
    fold_noise_no_occ _ y (fun w hw => ⟨hnz w hw, hNoise w hw⟩)
  have e4 : y.map (fun c => if isWordChar c || pyIsSpace c then c else ' ') = y :=
    map_self_of_fixed y _ (fun c hc => if_pos (hword c hc))
  have e5 : subWs y = y := subWs_fixed y hchain hspc
  simp only [normalize_company_name]
  rw [e0, e1, e2, e3, e4, e5, e1]

/-- C6 amended: canonicalization is idempotent for every input whose
canonical form contains no legal-form full name and no noise word as a
substring (the counterexample shows that when a deletion splices a noise
word or legal form together, a second pass simplifies further): under
that condition the second pass changes nothing, because the canonical
form is already lower-case, trimmed, free of replaceable occurrences,
made of word characters and single blanks only. -/
theorem c6_amended_idempotent_without_reoccurrence (x : List Char)
    (hLegal : ∀ p ∈ legalFormMappings, pyIn p.1 (normalize_company_name x) = false)
    (hNoise : ∀ w ∈ noiseWords, pyIn w (normalize_company_name x) = false) :
    normalize_company_name (normalize_company_name x) = normalize_company_name x :=
  normalize_fixed_point (normalize_company_name x)
    (normalize_chars_lower x) (normalize_chars_word x) (normalize_space_char x)
    (normalize_chain x) (normalize_head x) (normalize_last x) hLegal hNoise

end CanonicalizerFixedPoint

/-- Witness for the amended C6 at a concrete input whose canonical form
re-contains no replaceable token. -/
theorem c6_amended_idempotent_without_reoccurrence_witness :
    normalize_company_name (normalize_company_name ("Acme GmbH".toList))
      = normalize_company_name ("Acme GmbH".toList) :=
  c6_amended_idempotent_without_reoccurrence ("Acme GmbH".toList) (by decide) (by decide)
